import Mathlib

/-!
Shallow embedding of the Quant-AI-Trading-Engine core
(src/server/trading/RiskManager.ts and src/server/trading/Engine.ts).

Numbers are modelled as rationals (ℚ); JavaScript objects
(`Record<string, ...>`) as insertion-ordered association lists; the JS
truthiness guard `marketData[pair] && marketData[pair].last` as an
`Option ℚ` filtered to nonzero values.
-/

/-- A held position: `{ amount, avgEntryPrice }` in RiskManager.ts. -/
structure Position where
  amount : ℚ
  avgEntryPrice : ℚ
deriving DecidableEq, Repr

/-- The `Portfolio` interface of RiskManager.ts. `positions` and
`targetAllocations` are insertion-ordered association lists mirroring JS
object key order. -/
structure Portfolio where
  balance : ℚ
  initialBalance : ℚ
  positions : List (String × Position)
  pnl : ℚ
  drawdown : ℚ
  maxDrawdown : ℚ
  winRate : ℚ
  sharpeRatio : ℚ
  totalTrades : ℕ
  winningTrades : ℕ
  targetAllocations : List (String × ℚ)
deriving DecidableEq, Repr

/-- JS object lookup `positions[pair]`: first binding of the key. -/
def getPos (ps : List (String × Position)) (k : String) : Option Position :=
  match ps with
  | [] => none
  | (k', v) :: rest => if k' = k then some v else getPos rest k

/-- JS object write `positions[pair] = v`: update in place if the key is
present, else append at the end (JS insertion order). -/
def setPos (ps : List (String × Position)) (k : String) (v : Position) :
    List (String × Position) :=
  match ps with
  | [] => [(k, v)]
  | (k', v') :: rest =>
      if k' = k then (k, v) :: rest else (k', v') :: setPos rest k v

/-- JS `delete positions[pair]`. -/
def delPos (ps : List (String × Position)) (k : String) :
    List (String × Position) :=
  ps.filter (fun e => e.1 ≠ k)

/-- The initial portfolio literal of RiskManager.ts (lines 18–36). -/
def initialPortfolio : Portfolio where
  balance := 100000
  initialBalance := 100000
  positions := []
  pnl := 0
  drawdown := 0
  maxDrawdown := 0
  winRate := 0
  sharpeRatio := 3/2
  totalTrades := 0
  winningTrades := 0
  targetAllocations :=
    [("BTC/USDT", 30/100), ("ETH/USDT", 25/100), ("SOL/USDT", 15/100),
     ("ADA/USDT", 15/100), ("XRP/USDT", 15/100)]

/-- Trade side. -/
inductive TradeType where
  | BUY
  | SELL
deriving DecidableEq, Repr

/-- The epsilon `0.000001` used for position cleanup. -/
def epsilon : ℚ := 1/1000000

/-- `RiskManager.executeTrade(pair, type, price, amount)`
(RiskManager.ts lines 116–163). Returns the success flag together with
the updated portfolio. -/
def executeTrade (p : Portfolio) (pair : String) (ty : TradeType)
    (price amount : ℚ) : Bool × Portfolio :=
  let value := price * amount
  match ty with
  | .BUY =>
      if p.balance < value then (false, p)
      else
        let pos := (getPos p.positions pair).getD ⟨0, 0⟩
        let totalValue := pos.amount * pos.avgEntryPrice + value
        let newAmount := pos.amount + amount
        (true,
          { p with
            balance := p.balance - value
            positions := setPos p.positions pair
              ⟨newAmount, totalValue / newAmount⟩ })
  | .SELL =>
      match getPos p.positions pair with
      | none => (false, p)
      | some pos =>
          if pos.amount < amount then (false, p)
          else
            let pnl := (price - pos.avgEntryPrice) * amount
            let winning :=
              if pnl > 0 then p.winningTrades + 1 else p.winningTrades
            let total := p.totalTrades + 1
            let winRate := ((winning : ℚ) / (total : ℚ)) * 100
            let newAmount := pos.amount - amount
            (true,
              { p with
                balance := p.balance + value
                pnl := p.pnl + pnl
                winningTrades := winning
                totalTrades := total
                winRate := winRate
                sharpeRatio := 3/2 + (winRate - 50) * (5/100)
                positions :=
                  if newAmount ≤ epsilon then delPos p.positions pair
                  else setPos p.positions pair ⟨newAmount, pos.avgEntryPrice⟩ })

/-- A market snapshot restricted to the `last` field: `some q` when the
pair is present with `last = q`. -/
def MarketData : Type := String → Option ℚ

/-- The JS truthiness guard `marketData[pair] && marketData[pair].last`:
a `last` price of 0 is falsy and counts as no price. -/
def hasLast (md : MarketData) (pair : String) : Option ℚ :=
  match md pair with
  | some q => if q = 0 then none else some q
  | none => none

/-- The `currentEquity` accumulation shared by `updatePrices`
(lines 53–68) and `checkRebalance` (lines 174–179): balance plus
`amount × last` for each position whose pair has a truthy price. -/
def equity (p : Portfolio) (md : MarketData) : ℚ :=
  p.positions.foldl
    (fun acc e =>
      match hasLast md e.1 with
      | some price => acc + e.2.amount * price
      | none => acc)
    p.balance

/-- `RiskManager.updatePrices(marketData)` (lines 52–82): recomputes
drawdown, maxDrawdown and pnl from current equity. -/
def updatePrices (p : Portfolio) (md : MarketData) : Portfolio :=
  let currentEquity := equity p md
  let peakEquity := max p.initialBalance currentEquity
  let drawdown := (peakEquity - currentEquity) / peakEquity
  { p with
    drawdown := drawdown
    maxDrawdown := if drawdown > p.maxDrawdown then drawdown else p.maxDrawdown
    pnl := currentEquity - p.initialBalance }

/-- `RiskManager.calculateTradePnL(pair, sellPrice, amount)`
(lines 165–169). -/
def calculateTradePnL (p : Portfolio) (pair : String)
    (sellPrice amount : ℚ) : ℚ :=
  match getPos p.positions pair with
  | none => 0
  | some pos => (sellPrice - pos.avgEntryPrice) * amount

/-- A rebalance order as produced by `checkRebalance`. -/
structure RebalanceOrder where
  pair : String
  action : TradeType
  amount : ℚ
  price : ℚ
deriving DecidableEq, Repr

/-- The body of `checkRebalance`'s loop over `targetAllocations`
(RiskManager.ts lines 181–209) for one `(pair, targetPct)` entry. -/
def rebalanceFor (p : Portfolio) (currentEquity : ℚ) (md : MarketData)
    (e : String × ℚ) : Option RebalanceOrder :=
  let targetValue : ℚ := currentEquity * e.2
  match hasLast md e.1 with
  | none => none
  | some currentPrice =>
      let currentValue : ℚ :=
        match getPos p.positions e.1 with
        | some pos => pos.amount * currentPrice
        | none => 0
      let deviation : ℚ := |currentValue - targetValue| / currentEquity
      if deviation > 5/100 then
        if currentValue > targetValue then
          some ⟨e.1, .SELL, (currentValue - targetValue) / currentPrice,
                currentPrice⟩
        else
          if p.balance ≥ targetValue - currentValue then
            some ⟨e.1, .BUY, (targetValue - currentValue) / currentPrice,
                  currentPrice⟩
          else none
      else none

/-- `RiskManager.checkRebalance(marketData)` (lines 171–212). -/
def checkRebalance (p : Portfolio) (md : MarketData) : List RebalanceOrder :=
  let currentEquity := equity p md
  p.targetAllocations.filterMap (rebalanceFor p currentEquity md)

/-- Trade log entry status. -/
inductive TradeStatus where
  | EXECUTED
  | FAILED
  | PENDING
deriving DecidableEq, Repr

/-- The `TradeLog` interface of Engine.ts. -/
structure TradeLog where
  id : String
  timestamp : ℕ
  pair : String
  type : TradeType
  price : ℚ
  amount : ℚ
  status : TradeStatus
  pnl : Option ℚ
deriving DecidableEq, Repr

/-- The part of `TradingEngine` state the claims are about. -/
structure EngineState where
  riskPortfolio : Portfolio
  logs : List TradeLog
deriving DecidableEq, Repr

/-- Slippage application (Engine.ts lines 139–140): BUY executes at
`price + price × slip`, SELL at `price − price × slip`, where `slip` is
the random draw from `[0, 0.001)`. -/
def executedPrice (ty : TradeType) (price slip : ℚ) : ℚ :=
  match ty with
  | .BUY => price + price * slip
  | .SELL => price - price * slip

/-- The log entry `TradingEngine.executeTrade` builds (Engine.ts lines
144–159). `logId` and `ts` stand for the random id and `Date.now()`.
Note the `pnl` field is computed by `calculateTradePnL` on the portfolio
AFTER the risk manager has applied the trade. -/
def engineLogEntry (st : EngineState) (pair : String) (ty : TradeType)
    (price amount slip : ℚ) (logId : String) (ts : ℕ) : TradeLog :=
  let res := executeTrade st.riskPortfolio pair ty
    (executedPrice ty price slip) amount
  let logPnl : Option ℚ :=
    if res.1 then
      match ty with
      | .SELL =>
          some (calculateTradePnL res.2 pair (executedPrice ty price slip)
            amount)
      | .BUY => none
    else none
  ⟨logId, ts, pair, ty, executedPrice ty price slip, amount,
   if res.1 then .EXECUTED else .FAILED, logPnl⟩

/-- `TradingEngine.executeTrade(pair, type, price, amount)`
(Engine.ts lines 137–165): applies the trade to the risk manager's
portfolio, then appends the log entry, shifting out the oldest entry
when the log exceeds 1000 entries. -/
def engineExecuteTrade (st : EngineState) (pair : String) (ty : TradeType)
    (price amount slip : ℚ) (logId : String) (ts : ℕ) : EngineState :=
  let res := executeTrade st.riskPortfolio pair ty
    (executedPrice ty price slip) amount
  let logs' := st.logs ++ [engineLogEntry st pair ty price amount slip logId ts]
  ⟨res.2, if logs'.length > 1000 then logs'.tail else logs'⟩

/-- One risk-manager-level operation: a trade or a price-update tick. -/
inductive Op where
  | trade (pair : String) (ty : TradeType) (price amount : ℚ)
  | tick (md : MarketData)

/-- Apply one operation to a portfolio. -/
def applyOp (p : Portfolio) : Op → Portfolio
  | .trade pair ty price amount => (executeTrade p pair ty price amount).2
  | .tick md => updatePrices p md

/-- Run a sequence of operations. -/
def runOps (p : Portfolio) (ops : List Op) : Portfolio :=
  ops.foldl applyOp p

/-- Well-formed inputs: trades carry non-negative price and amount,
ticks carry non-negative snapshot prices. -/
def ValidOp : Op → Prop
  | .trade _ _ price amount => 0 ≤ price ∧ 0 ≤ amount
  | .tick md => ∀ pair q, md pair = some q → 0 ≤ q

/-- A portfolio that differs from the initial one only in cash and
positions; used to build concrete test states. -/
def withState (balance : ℚ) (ps : List (String × Position)) : Portfolio :=
  { initialPortfolio with balance := balance, positions := ps }

/-! ### Association-list lemmas -/

theorem getPos_setPos_self (ps : List (String × Position)) (k : String)
    (v : Position) : getPos (setPos ps k v) k = some v := by
  induction ps with
  | nil => simp [getPos, setPos]
  | cons e rest ih =>
      obtain ⟨k', v'⟩ := e
      by_cases h : k' = k <;> simp [getPos, setPos, h, ih]

theorem getPos_delPos_self (ps : List (String × Position)) (k : String) :
    getPos (delPos ps k) k = none := by
  induction ps with
  | nil => simp [getPos, delPos]
  | cons e rest ih =>
      obtain ⟨k', v'⟩ := e
      by_cases h : k' = k <;>
        simp_all [getPos, delPos, List.filter_cons, h]

theorem mem_setPos (ps : List (String × Position)) (k : String)
    (v : Position) (x : String × Position) (hx : x ∈ setPos ps k v) :
    x = (k, v) ∨ x ∈ ps := by
  induction ps with
  | nil => simpa [setPos] using hx
  | cons e rest ih =>
      obtain ⟨k', v'⟩ := e
      by_cases h : k' = k
      · simp only [setPos, if_pos h, List.mem_cons] at hx
        rcases hx with hx | hx
        · exact Or.inl hx
        · exact Or.inr (List.mem_cons_of_mem _ hx)
      · simp only [setPos, if_neg h, List.mem_cons] at hx
        rcases hx with hx | hx
        · exact Or.inr (by simp [hx])
        · rcases ih hx with hx' | hx'
          · exact Or.inl hx'
          · exact Or.inr (List.mem_cons_of_mem _ hx')

theorem mem_delPos (ps : List (String × Position)) (k : String)
    (x : String × Position) (hx : x ∈ delPos ps k) : x ∈ ps :=
  List.mem_of_mem_filter hx

/-! ### Basic facts about `executeTrade` -/

/-- On failure, `executeTrade` returns the portfolio untouched. -/
theorem executeTrade_fail_frame (p : Portfolio) (pair : String)
    (ty : TradeType) (price amount : ℚ)
    (h : (executeTrade p pair ty price amount).1 = false) :
    (executeTrade p pair ty price amount).2 = p := by
  cases ty with
  | BUY =>
      by_cases hb : p.balance < price * amount
      · simp [executeTrade, hb]
      · simp [executeTrade, hb] at h
  | SELL =>
      rcases hg : getPos p.positions pair with _ | pos
      · simp [executeTrade, hg]
      · by_cases ha : pos.amount < amount
        · simp [executeTrade, hg, ha]
        · simp [executeTrade, hg, ha] at h

/-! ### C2: failure characterization and failure frame -/

/-- C2: `executeTrade` with BUY fails iff `balance < price × amount`;
with SELL it fails iff no position exists for the pair or the held
amount is below the requested amount; every failure leaves the entire
portfolio unchanged. -/
theorem executeTrade_failure_characterization (p : Portfolio)
    (pair : String) (price amount : ℚ) :
    ((executeTrade p pair .BUY price amount).1 = false ↔
        p.balance < price * amount)
    ∧ ((executeTrade p pair .SELL price amount).1 = false ↔
        getPos p.positions pair = none
        ∨ ∃ pos, getPos p.positions pair = some pos ∧ pos.amount < amount)
    ∧ (∀ ty : TradeType, (executeTrade p pair ty price amount).1 = false →
        (executeTrade p pair ty price amount).2 = p) := by
  refine ⟨?_, ?_, fun ty h => executeTrade_fail_frame p pair ty price amount h⟩
  · by_cases hb : p.balance < price * amount <;> simp [executeTrade, hb]
  · rcases hg : getPos p.positions pair with _ | pos
    · simp [executeTrade, hg]
    · by_cases ha : pos.amount < amount <;> simp [executeTrade, hg, ha]

/-- Witness for C2 at a concrete failing BUY: the initial portfolio
cannot afford 3 units at price 50000 and is left unchanged. -/
theorem executeTrade_failure_characterization_witness :
    (executeTrade initialPortfolio "BTC/USDT" .BUY 50000 3).2
      = initialPortfolio := by
  have h := executeTrade_failure_characterization initialPortfolio
    "BTC/USDT" 50000 3
  exact h.2.2 .BUY (h.1.mpr (by norm_num [initialPortfolio]))

/-! ### C1: balance never negative -/

/-- Run a sequence of `executeTrade` calls
`(pair, type, price, amount)`. -/
def runTrades (p : Portfolio)
    (ts : List (String × TradeType × ℚ × ℚ)) : Portfolio :=
  ts.foldl (fun q t => (executeTrade q t.1 t.2.1 t.2.2.1 t.2.2.2).2) p

/-- One step of C1: a trade with non-negative price and amount keeps the
balance non-negative. -/
theorem balance_nonneg_step (p : Portfolio) (pair : String)
    (ty : TradeType) (price amount : ℚ) (hb : 0 ≤ p.balance)
    (hp : 0 ≤ price) (ha : 0 ≤ amount) :
    0 ≤ (executeTrade p pair ty price amount).2.balance := by
  cases ty with
  | BUY =>
      by_cases h : p.balance < price * amount
      · simpa [executeTrade, h] using hb
      · simpa [executeTrade, h] using sub_nonneg.mpr (not_lt.mp h)
  | SELL =>
      rcases hg : getPos p.positions pair with _ | pos
      · simpa [executeTrade, hg] using hb
      · by_cases hlt : pos.amount < amount
        · simpa [executeTrade, hg, hlt] using hb
        · simp only [executeTrade, hg, hlt]
          simpa using add_nonneg hb (mul_nonneg hp ha)

theorem balance_nonneg_run (ts : List (String × TradeType × ℚ × ℚ)) :
    ∀ p : Portfolio, 0 ≤ p.balance →
    (∀ t ∈ ts, 0 ≤ t.2.2.1 ∧ 0 ≤ t.2.2.2) →
    0 ≤ (runTrades p ts).balance := by
  induction ts with
  | nil => intro p hb _; simpa [runTrades] using hb
  | cons t rest ih =>
      intro p hb hv
      have ht := hv t (List.mem_cons_self t rest)
      have step := balance_nonneg_step p t.1 t.2.1 t.2.2.1 t.2.2.2 hb
        ht.1 ht.2
      have := ih _ step (fun u hu => hv u (List.mem_cons_of_mem t hu))
      simpa [runTrades] using this

/-- C1: for every sequence of `executeTrade` calls with non-negative
price and amount, starting from the initial portfolio, the balance is
never negative. -/
theorem balance_never_negative (ts : List (String × TradeType × ℚ × ℚ))
    (hv : ∀ t ∈ ts, 0 ≤ t.2.2.1 ∧ 0 ≤ t.2.2.2) :
    0 ≤ (runTrades initialPortfolio ts).balance :=
  balance_nonneg_run ts initialPortfolio (by norm_num [initialPortfolio]) hv

/-- Witness for C1 on a concrete two-trade history. -/
theorem balance_never_negative_witness :
    0 ≤ (runTrades initialPortfolio
      [("ETH/USDT", .BUY, 2000, 10), ("ETH/USDT", .SELL, 2500, 10)]).balance :=
  balance_never_negative _ (by norm_num)

/-! ### C10: SELL preserves avgEntryPrice; executeTrade frame -/

/-- C10: a successful SELL never changes the sold position's
`avgEntryPrice` (when the position remains present), and no
`executeTrade` call changes `initialBalance` or `targetAllocations`. -/
theorem sell_preserves_avgEntry (p : Portfolio) (pair : String)
    (price amount : ℚ) :
    ((executeTrade p pair .SELL price amount).1 = true →
      ∀ pos', getPos (executeTrade p pair .SELL price amount).2.positions
          pair = some pos' →
        ∃ pos, getPos p.positions pair = some pos
          ∧ pos'.avgEntryPrice = pos.avgEntryPrice)
    ∧ (∀ ty : TradeType,
        (executeTrade p pair ty price amount).2.initialBalance
          = p.initialBalance)
    ∧ (∀ ty : TradeType,
        (executeTrade p pair ty price amount).2.targetAllocations
          = p.targetAllocations) := by
  refine ⟨?_, ?_, ?_⟩
  · intro hs pos' hp'
    rcases hg : getPos p.positions pair with _ | pos
    · simp [executeTrade, hg] at hs
    · by_cases hlt : pos.amount < amount
      · simp [executeTrade, hg, hlt] at hs
      · refine ⟨pos, rfl, ?_⟩
        by_cases he : pos.amount - amount ≤ epsilon
        · simp [executeTrade, hg, hlt, he, getPos_delPos_self] at hp'
        · simp [executeTrade, hg, hlt, he, getPos_setPos_self] at hp'
          simp [← hp']
  · intro ty
    cases ty with
    | BUY =>
        by_cases hb : p.balance < price * amount <;>
          simp [executeTrade, hb]
    | SELL =>
        rcases hg : getPos p.positions pair with _ | pos
        · simp [executeTrade, hg]
        · by_cases hlt : pos.amount < amount <;>
            simp [executeTrade, hg, hlt]
  · intro ty
    cases ty with
    | BUY =>
        by_cases hb : p.balance < price * amount <;>
          simp [executeTrade, hb]
    | SELL =>
        rcases hg : getPos p.positions pair with _ | pos
        · simp [executeTrade, hg]
        · by_cases hlt : pos.amount < amount <;>
            simp [executeTrade, hg, hlt]

/-- Witness for C10: a concrete partial sell keeps the entry price. -/
theorem sell_preserves_avgEntry_witness :
    ∃ pos, getPos (withState 0 [("SOL/USDT", ⟨1, 100⟩)]).positions
        "SOL/USDT" = some pos
      ∧ (Position.mk (1/2) 100).avgEntryPrice = pos.avgEntryPrice :=
  (sell_preserves_avgEntry (withState 0 [("SOL/USDT", ⟨1, 100⟩)])
      "SOL/USDT" 10 (1/2)).1
    (by norm_num [executeTrade, withState, initialPortfolio, getPos])
    ⟨1/2, 100⟩
    (by norm_num [executeTrade, withState, initialPortfolio, getPos,
          setPos, epsilon])

/-! ### C5: epsilon cleanup happens only on SELL -/

/-- C5 counterexample: a BUY of `1e-7` units from the initial portfolio
succeeds and leaves a present position whose amount is at or below the
`1e-6` epsilon — `executeTrade`'s BUY branch performs no epsilon
cleanup, refuting the claimed invariant. -/
theorem buy_below_epsilon_counterexample :
    getPos (executeTrade initialPortfolio "BTC/USDT" .BUY 1
        (1/10000000)).2.positions "BTC/USDT" = some ⟨1/10000000, 1⟩
    ∧ ¬ epsilon < (1/10000000 : ℚ) := by
  constructor
  · norm_num [executeTrade, initialPortfolio, getPos, setPos]
  · norm_num [epsilon]

/-- C5 amended: after a successful SELL, the sold pair's entry is
removed when its remaining amount falls at or below `1e-6`;
equivalently, if the pair is still present its amount is strictly above
epsilon. (BUY performs no such cleanup.) -/
theorem sell_epsilon_cleanup (p : Portfolio) (pair : String)
    (price amount : ℚ)
    (hs : (executeTrade p pair .SELL price amount).1 = true) :
    ∀ pos', getPos (executeTrade p pair .SELL price amount).2.positions
        pair = some pos' → epsilon < pos'.amount := by
  intro pos' hp'
  rcases hg : getPos p.positions pair with _ | pos
  · simp [executeTrade, hg] at hs
  · by_cases hlt : pos.amount < amount
    · simp [executeTrade, hg, hlt] at hs
    · by_cases he : pos.amount - amount ≤ epsilon
      · simp [executeTrade, hg, hlt, he, getPos_delPos_self] at hp'
      · simp [executeTrade, hg, hlt, he, getPos_setPos_self] at hp'
        rw [← hp']
        exact lt_of_not_le he

/-- Witness for the amended C5 on a concrete partial sell. -/
theorem sell_epsilon_cleanup_witness :
    epsilon < (Position.mk (3/4) 200).amount :=
  sell_epsilon_cleanup (withState 0 [("ETH/USDT", ⟨1, 200⟩)])
    "ETH/USDT" 300 (1/4)
    (by norm_num [executeTrade, withState, initialPortfolio, getPos])
    ⟨3/4, 200⟩
    (by norm_num [executeTrade, withState, initialPortfolio, getPos,
          setPos, epsilon])

/-! ### C6: weighted average entry price over a run of BUY fills -/

/-- Run a sequence of BUY fills `(price, amount)` on one pair. -/
def runBuys (p : Portfolio) (pair : String) (fills : List (ℚ × ℚ)) :
    Portfolio :=
  fills.foldl (fun q f => (executeTrade q pair .BUY f.1 f.2).2) p

/-- All fills in the sequence succeed when applied in order. -/
def buysSucceed (p : Portfolio) (pair : String) :
    List (ℚ × ℚ) → Bool
  | [] => true
  | f :: fs =>
      (executeTrade p pair .BUY f.1 f.2).1 &&
        buysSucceed (executeTrade p pair .BUY f.1 f.2).2 pair fs

/-- The position after a successful BUY on an existing position holding
amount `a` at total cost `v` (entry price `v / a`). -/
theorem buy_success_position (p : Portfolio) (pair : String)
    (price amt a v : ℚ) (ha : 0 < a)
    (hg : getPos p.positions pair = some ⟨a, v / a⟩)
    (hb : ¬ p.balance < price * amt) :
    getPos (executeTrade p pair .BUY price amt).2.positions pair
      = some ⟨a + amt, (v + price * amt) / (a + amt)⟩ := by
  simp only [executeTrade, if_neg hb, hg, Option.getD_some]
  rw [getPos_setPos_self]
  congr 2
  rw [mul_div_cancel₀ v (ne_of_gt ha)]

theorem buys_accumulate (pair : String) (fills : List (ℚ × ℚ)) :
    ∀ (p : Portfolio) (a v : ℚ), 0 < a →
    getPos p.positions pair = some ⟨a, v / a⟩ →
    buysSucceed p pair fills = true →
    (∀ f ∈ fills, 0 < f.2) →
    getPos (runBuys p pair fills).positions pair =
      some ⟨a + (fills.map Prod.snd).sum,
            (v + (fills.map fun f => f.1 * f.2).sum) /
              (a + (fills.map Prod.snd).sum)⟩ := by
  induction fills with
  | nil =>
      intro p a v ha hg _ _
      simpa [runBuys] using hg
  | cons f fs ih =>
      intro p a v ha hg hs hpos
      obtain ⟨price, amt⟩ := f
      have hamt : 0 < amt := hpos (price, amt) (List.mem_cons_self _ _)
      simp only [buysSucceed, Bool.and_eq_true] at hs
      obtain ⟨hs1, hs2⟩ := hs
      by_cases hb : p.balance < price * amt
      · simp [executeTrade, hb] at hs1
      · have hpos' := buy_success_position p pair price amt a v ha hg hb
        have := ih (executeTrade p pair .BUY price amt).2 (a + amt)
          (v + price * amt) (by linarith) hpos' hs2
          (fun u hu => hpos u (List.mem_cons_of_mem _ hu))
        simp only [runBuys, List.foldl_cons] at this ⊢
        rw [this]
        simp only [List.map_cons, List.sum_cons]
        congr 2 <;> ring

/-- C6: after any nonempty sequence of successful BUY fills on one pair
(starting with no position on that pair), the position's amount is the
sum of all fill amounts and its `avgEntryPrice` is the value-weighted
average `(Σ priceᵢ × amountᵢ) / (Σ amountᵢ)` of all fill prices. -/
theorem buy_avg_is_weighted_average (p : Portfolio) (pair : String)
    (fills : List (ℚ × ℚ)) (h0 : getPos p.positions pair = none)
    (hne : fills ≠ []) (hs : buysSucceed p pair fills = true)
    (hpos : ∀ f ∈ fills, 0 < f.2) :
    getPos (runBuys p pair fills).positions pair =
      some ⟨(fills.map Prod.snd).sum,
            (fills.map fun f => f.1 * f.2).sum /
              (fills.map Prod.snd).sum⟩ := by
  rcases fills with _ | ⟨f, fs⟩
  · exact absurd rfl hne
  obtain ⟨price, amt⟩ := f
  have hamt : 0 < amt := hpos (price, amt) (List.mem_cons_self _ _)
  simp only [buysSucceed, Bool.and_eq_true] at hs
  obtain ⟨hs1, hs2⟩ := hs
  by_cases hb : p.balance < price * amt
  · simp [executeTrade, hb] at hs1
  · have hpos1 : getPos (executeTrade p pair .BUY price amt).2.positions
        pair = some ⟨amt, price * amt / amt⟩ := by
      simp only [executeTrade, if_neg hb, h0, Option.getD_none]
      rw [getPos_setPos_self]
      norm_num
    have := buys_accumulate pair fs (executeTrade p pair .BUY price amt).2
      amt (price * amt) hamt hpos1 hs2
      (fun u hu => hpos u (List.mem_cons_of_mem _ hu))
    simp only [runBuys, List.foldl_cons] at this ⊢
    rw [this]
    simp only [List.map_cons, List.sum_cons]

/-- Witness for C6: two fills, 1 unit @ 100 then 1 unit @ 200, give a
position of 2 units at average entry 150. -/
theorem buy_avg_is_weighted_average_witness :
    getPos (runBuys initialPortfolio "ADA/USDT"
        [(100, 1), (200, 1)]).positions "ADA/USDT"
      = some ⟨([((100:ℚ), (1:ℚ)), (200, 1)].map Prod.snd).sum,
          ([((100:ℚ), (1:ℚ)), (200, 1)].map fun f => f.1 * f.2).sum /
            ([((100:ℚ), (1:ℚ)), (200, 1)].map Prod.snd).sum⟩ :=
  buy_avg_is_weighted_average initialPortfolio "ADA/USDT"
    [(100, 1), (200, 1)]
    (by norm_num [initialPortfolio, getPos])
    (by simp)
    (by norm_num [buysSucceed, executeTrade, initialPortfolio, getPos,
          setPos])
    (by norm_num)

/-! ### C3: equity valuation in updatePrices -/

/-- The equity C3 claims: positions whose pair has no snapshot price are
valued at `amount × avgEntryPrice`. Written from the claim's words, to
be compared against the code's `equity`. -/
def claimedEquity (p : Portfolio) (md : MarketData) : ℚ :=
  p.balance + (p.positions.map fun e =>
    match hasLast md e.1 with
    | some price => e.2.amount * price
    | none => e.2.amount * e.2.avgEntryPrice).sum

/-- Equity as the code actually computes it, restated as a sum:
positions whose pair has no (truthy) snapshot price contribute 0. -/
def zeroValuedEquity (p : Portfolio) (md : MarketData) : ℚ :=
  p.balance + (p.positions.map fun e =>
    match hasLast md e.1 with
    | some price => e.2.amount * price
    | none => 0).sum

theorem equity_foldl_eq (md : MarketData)
    (ps : List (String × Position)) :
    ∀ a : ℚ,
    ps.foldl (fun acc e =>
        match hasLast md e.1 with
        | some price => acc + e.2.amount * price
        | none => acc) a
      = a + (ps.map fun e =>
          match hasLast md e.1 with
          | some price => e.2.amount * price
          | none => 0).sum := by
  induction ps with
  | nil => intro a; simp
  | cons e rest ih =>
      intro a
      rcases h : hasLast md e.1 with _ | price <;>
        simp [List.foldl_cons, h, ih, add_assoc]

theorem equity_eq_zeroValued (p : Portfolio) (md : MarketData) :
    equity p md = zeroValuedEquity p md := by
  unfold equity zeroValuedEquity
  exact equity_foldl_eq md p.positions p.balance

/-- C3 counterexample: a portfolio holding 1 unit bought at 50 and a
snapshot with no prices. The code values the position at 0 (the loop
skips it), not at its average entry price, so the pnl set by
`updatePrices` differs from the one the claim derives. -/
theorem updatePrices_missing_price_counterexample :
    (updatePrices (withState 0 [("BTC/USDT", ⟨1, 50⟩)])
        (fun _ => none)).pnl
      ≠ claimedEquity (withState 0 [("BTC/USDT", ⟨1, 50⟩)])
          (fun _ => none)
        - (withState 0 [("BTC/USDT", ⟨1, 50⟩)]).initialBalance := by
  norm_num [updatePrices, equity, claimedEquity, hasLast, withState,
    initialPortfolio]

/-- C3 amended: `updatePrices` computes current equity as balance plus
`amount × last` for positions with a (truthy) snapshot price and 0 —
not `amount × avgEntryPrice` — for positions without one; drawdown and
pnl are derived from that equity exactly as the claim states. -/
theorem updatePrices_equity_formula (p : Portfolio) (md : MarketData) :
    (updatePrices p md).pnl = zeroValuedEquity p md - p.initialBalance
    ∧ (updatePrices p md).drawdown =
        (max p.initialBalance (zeroValuedEquity p md)
            - zeroValuedEquity p md)
          / max p.initialBalance (zeroValuedEquity p md)
    ∧ (updatePrices p md).maxDrawdown =
        (if (max p.initialBalance (zeroValuedEquity p md)
              - zeroValuedEquity p md)
            / max p.initialBalance (zeroValuedEquity p md)
            > p.maxDrawdown
          then (max p.initialBalance (zeroValuedEquity p md)
              - zeroValuedEquity p md)
            / max p.initialBalance (zeroValuedEquity p md)
          else p.maxDrawdown) := by
  have heq := equity_eq_zeroValued p md
  refine ⟨?_, ?_, ?_⟩ <;> simp [updatePrices, heq]

/-- Witness for the amended C3 at a concrete portfolio and snapshot. -/
theorem updatePrices_equity_formula_witness :
    (updatePrices (withState 100 [("ETH/USDT", ⟨2, 30⟩)])
        (fun _ => some 40)).pnl
      = zeroValuedEquity (withState 100 [("ETH/USDT", ⟨2, 30⟩)])
          (fun _ => some 40)
        - (withState 100 [("ETH/USDT", ⟨2, 30⟩)]).initialBalance :=
  (updatePrices_equity_formula (withState 100 [("ETH/USDT", ⟨2, 30⟩)])
    (fun _ => some 40)).1

/-! ### C4: the PnL recorded on a SELL log entry -/

/-- C4 (code bug): selling the entire position books the correct
realized PnL (+50) into the portfolio, but the log entry for the same
fill carries `pnl = 0`, because `TradingEngine.executeTrade` calls
`calculateTradePnL` only after `RiskManager.executeTrade` has deleted
the position. The claimed value `(150 − 100) × 1 = 50` is not 0. -/
theorem engine_full_sell_logs_zero_pnl :
    (engineExecuteTrade ⟨withState 0 [("BTC/USDT", ⟨1, 100⟩)], []⟩
        "BTC/USDT" .SELL 150 1 0 "a" 0).riskPortfolio.pnl = 50
    ∧ (engineExecuteTrade ⟨withState 0 [("BTC/USDT", ⟨1, 100⟩)], []⟩
        "BTC/USDT" .SELL 150 1 0 "a" 0).logs.map TradeLog.pnl
      = [some 0]
    ∧ ((150 : ℚ) - 100) * 1 ≠ 0 := by
  refine ⟨?_, ?_, by norm_num⟩ <;>
    norm_num [engineExecuteTrade, engineLogEntry, executedPrice,
      executeTrade, calculateTradePnL, withState, initialPortfolio,
      getPos, setPos, delPos, epsilon]

/-! ### C7: drawdown in [0,1], maxDrawdown non-decreasing -/

theorem getPos_mem (ps : List (String × Position)) (k : String)
    (v : Position) (h : getPos ps k = some v) : (k, v) ∈ ps := by
  induction ps with
  | nil => simp [getPos] at h
  | cons e rest ih =>
      obtain ⟨k', v'⟩ := e
      by_cases hk : k' = k
      · subst hk
        simp only [getPos, eq_self_iff_true, if_true,
          Option.some.injEq] at h
        subst h
        exact List.mem_cons_self _ _
      · simp only [getPos, if_neg hk] at h
        exact List.mem_cons_of_mem _ (ih h)

/-- `executeTrade` never touches `initialBalance`, `targetAllocations`,
`drawdown` or `maxDrawdown`. -/
theorem executeTrade_frame_fields (p : Portfolio) (pair : String)
    (ty : TradeType) (price amount : ℚ) :
    (executeTrade p pair ty price amount).2.initialBalance
        = p.initialBalance
    ∧ (executeTrade p pair ty price amount).2.targetAllocations
        = p.targetAllocations
    ∧ (executeTrade p pair ty price amount).2.drawdown = p.drawdown
    ∧ (executeTrade p pair ty price amount).2.maxDrawdown
        = p.maxDrawdown := by
  cases ty with
  | BUY =>
      by_cases hb : p.balance < price * amount <;>
        simp [executeTrade, hb]
  | SELL =>
      rcases hg : getPos p.positions pair with _ | pos
      · simp [executeTrade, hg]
      · by_cases hlt : pos.amount < amount <;>
          simp [executeTrade, hg, hlt]

/-- A trade with non-negative amount keeps all position amounts
non-negative. -/
theorem amounts_nonneg_step (p : Portfolio) (pair : String)
    (ty : TradeType) (price amount : ℚ) (ha : 0 ≤ amount)
    (hps : ∀ e ∈ p.positions, 0 ≤ e.2.amount) :
    ∀ e ∈ (executeTrade p pair ty price amount).2.positions,
      0 ≤ e.2.amount := by
  cases ty with
  | BUY =>
      by_cases hb : p.balance < price * amount
      · simpa [executeTrade, hb] using hps
      · intro e he
        simp only [executeTrade, if_neg hb] at he
        rcases mem_setPos _ _ _ _ he with h | h
        · subst h
          rcases hg : getPos p.positions pair with _ | pos
          · simp [hg]
            exact ha
          · have := hps (pair, pos) (getPos_mem _ _ _ hg)
            simp only [hg, Option.getD_some]
            exact add_nonneg this ha
        · exact hps e h
  | SELL =>
      rcases hg : getPos p.positions pair with _ | pos
      · simpa [executeTrade, hg] using hps
      · by_cases hlt : pos.amount < amount
        · simpa [executeTrade, hg, hlt] using hps
        · intro e he
          simp only [executeTrade, hg, hlt] at he
          by_cases he' : pos.amount - amount ≤ epsilon
          · rw [if_pos he'] at he
            exact hps e (mem_delPos _ _ _ he)
          · rw [if_neg he'] at he
            rcases mem_setPos _ _ _ _ he with h | h
            · subst h
              simpa using sub_nonneg.mpr (not_lt.mp hlt)
            · exact hps e h

/-- Equity is non-negative when balance, held amounts and snapshot
prices are. -/
theorem equity_nonneg (p : Portfolio) (md : MarketData)
    (hb : 0 ≤ p.balance)
    (hps : ∀ e ∈ p.positions, 0 ≤ e.2.amount)
    (hmd : ∀ pair q, md pair = some q → 0 ≤ q) :
    0 ≤ equity p md := by
  rw [equity_eq_zeroValued]
  unfold zeroValuedEquity
  refine add_nonneg hb (List.sum_nonneg ?_)
  intro x hx
  obtain ⟨e, he, rfl⟩ := List.mem_map.mp hx
  rcases h : hasLast md e.1 with _ | price
  · simp [h]
  · have hq : md e.1 = some price := by
      unfold hasLast at h
      rcases h' : md e.1 with _ | q
      · simp [h'] at h
      · by_cases hz : q = 0 <;> simp_all [h']
    simp only [h]
    exact mul_nonneg (hps e he) (hmd e.1 price hq)

/-- `updatePrices` writes a drawdown in [0,1] whenever equity is
non-negative and the initial balance positive. -/
theorem updatePrices_drawdown_bounds (p : Portfolio) (md : MarketData)
    (hinit : 0 < p.initialBalance) (heq : 0 ≤ equity p md) :
    0 ≤ (updatePrices p md).drawdown
    ∧ (updatePrices p md).drawdown ≤ 1 := by
  have hpeak : 0 < max p.initialBalance (equity p md) :=
    lt_of_lt_of_le hinit (le_max_left _ _)
  constructor
  · simp only [updatePrices]
    exact div_nonneg (sub_nonneg.mpr (le_max_right _ _)) hpeak.le
  · simp only [updatePrices]
    rw [div_le_one hpeak]
    linarith

/-- The reachability invariant behind C7. -/
def portfolioInv (p : Portfolio) : Prop :=
  0 ≤ p.balance ∧ (∀ e ∈ p.positions, 0 ≤ e.2.amount)
    ∧ 0 < p.initialBalance ∧ 0 ≤ p.drawdown ∧ p.drawdown ≤ 1

theorem portfolioInv_initial : portfolioInv initialPortfolio := by
  refine ⟨by norm_num [initialPortfolio], ?_, by norm_num [initialPortfolio],
    by norm_num [initialPortfolio], by norm_num [initialPortfolio]⟩
  intro e he
  simp [initialPortfolio] at he

theorem portfolioInv_applyOp (p : Portfolio) (op : Op)
    (hv : ValidOp op) (h : portfolioInv p) : portfolioInv (applyOp p op) := by
  obtain ⟨hb, hps, hinit, hd0, hd1⟩ := h
  cases op with
  | trade pair ty price amount =>
      obtain ⟨hp, ha⟩ := hv
      have hframe := executeTrade_frame_fields p pair ty price amount
      exact ⟨balance_nonneg_step p pair ty price amount hb hp ha,
        amounts_nonneg_step p pair ty price amount ha hps,
        by rw [applyOp, hframe.1]; exact hinit,
        by rw [applyOp, hframe.2.2.1]; exact hd0,
        by rw [applyOp, hframe.2.2.1]; exact hd1⟩
  | tick md =>
      have heq := equity_nonneg p md hb hps hv
      have hdd := updatePrices_drawdown_bounds p md hinit heq
      exact ⟨by simpa [applyOp, updatePrices] using hb,
        by simpa [applyOp, updatePrices] using hps,
        by simpa [applyOp, updatePrices] using hinit,
        hdd.1, hdd.2⟩

theorem portfolioInv_runOps (ops : List Op) :
    ∀ p : Portfolio, portfolioInv p → (∀ op ∈ ops, ValidOp op) →
    portfolioInv (runOps p ops) := by
  induction ops with
  | nil => intro p h _; simpa [runOps] using h
  | cons op rest ih =>
      intro p h hv
      have h1 := portfolioInv_applyOp p op (hv op (List.mem_cons_self _ _)) h
      have := ih (applyOp p op) h1
        (fun u hu => hv u (List.mem_cons_of_mem _ hu))
      simpa [runOps] using this

theorem maxDrawdown_mono_step (p : Portfolio) (op : Op) :
    p.maxDrawdown ≤ (applyOp p op).maxDrawdown := by
  cases op with
  | trade pair ty price amount =>
      rw [applyOp, (executeTrade_frame_fields p pair ty price amount).2.2.2]
  | tick md =>
      simp only [applyOp, updatePrices]
      split
      · next h => exact le_of_lt h
      · exact le_refl _

theorem maxDrawdown_mono_run (ops : List Op) :
    ∀ p : Portfolio, p.maxDrawdown ≤ (runOps p ops).maxDrawdown := by
  induction ops with
  | nil => intro p; simp [runOps]
  | cons op rest ih =>
      intro p
      calc p.maxDrawdown ≤ (applyOp p op).maxDrawdown :=
            maxDrawdown_mono_step p op
        _ ≤ (runOps (applyOp p op) rest).maxDrawdown := ih _
        _ = (runOps p (op :: rest)).maxDrawdown := by simp [runOps]

/-- C7: in every portfolio state reachable from the initial one by
well-formed trades and price updates, `drawdown` lies in [0,1]; and from
any such state, `maxDrawdown` never decreases across any further
sequence of operations. -/
theorem drawdown_in_unit_interval (ops more : List Op)
    (hv : ∀ op ∈ ops, ValidOp op) :
    (0 ≤ (runOps initialPortfolio ops).drawdown
      ∧ (runOps initialPortfolio ops).drawdown ≤ 1)
    ∧ (runOps initialPortfolio ops).maxDrawdown
        ≤ (runOps (runOps initialPortfolio ops) more).maxDrawdown := by
  have hinv := portfolioInv_runOps ops initialPortfolio
    portfolioInv_initial hv
  exact ⟨⟨hinv.2.2.2.1, hinv.2.2.2.2⟩, maxDrawdown_mono_run more _⟩

/-- Witness for C7 on a concrete buy followed by a price tick. -/
theorem drawdown_in_unit_interval_witness :
    (0 ≤ (runOps initialPortfolio
        [Op.trade "BTC/USDT" .BUY 100 1, Op.tick fun _ => none]).drawdown
      ∧ (runOps initialPortfolio
        [Op.trade "BTC/USDT" .BUY 100 1, Op.tick fun _ => none]).drawdown
          ≤ 1)
    ∧ (runOps initialPortfolio
        [Op.trade "BTC/USDT" .BUY 100 1, Op.tick fun _ => none]).maxDrawdown
      ≤ (runOps (runOps initialPortfolio
          [Op.trade "BTC/USDT" .BUY 100 1, Op.tick fun _ => none])
          [Op.tick fun _ => some 120]).maxDrawdown :=
  drawdown_in_unit_interval
    [Op.trade "BTC/USDT" .BUY 100 1, Op.tick fun _ => none]
    [Op.tick fun _ => some 120]
    (by
      intro op hop
      simp only [List.mem_cons, List.not_mem_nil, or_false] at hop
      rcases hop with rfl | rfl
      · norm_num [ValidOp]
      · intro pair q hq
        simp at hq)

/-! ### C8: the trade log is append-only, bounded, FIFO -/

/-- C8: every engine-level `executeTrade` appends exactly one entry
(status EXECUTED on success, FAILED on failure); starting from a log
within the 1000-entry cap the log stays within the cap, and when the cap
would be exceeded the oldest entry is dropped first, preserving the
insertion order of the retained entries (the new log is a suffix of the
old log followed by the new entry). -/
theorem engineExecuteTrade_logs (st : EngineState) (pair : String)
    (ty : TradeType) (price amount slip : ℚ) (logId : String) (ts : ℕ) :
    (engineExecuteTrade st pair ty price amount slip logId ts).logs
      = if st.logs.length + 1 > 1000
        then (st.logs
          ++ [engineLogEntry st pair ty price amount slip logId ts]).tail
        else st.logs
          ++ [engineLogEntry st pair ty price amount slip logId ts] := by
  simp [engineExecuteTrade, List.length_append]

theorem engine_log_cap (st : EngineState) (pair : String) (ty : TradeType)
    (price amount slip : ℚ) (logId : String) (ts : ℕ)
    (h : st.logs.length ≤ 1000) :
    (engineExecuteTrade st pair ty price amount slip logId ts).logs.length
        ≤ 1000
    ∧ (engineExecuteTrade st pair ty price amount slip logId ts).logs
        = List.drop (st.logs.length + 1 - 1000)
            (st.logs ++ [engineLogEntry st pair ty price amount slip logId ts])
    ∧ (engineLogEntry st pair ty price amount slip logId ts).status
        = (if (executeTrade st.riskPortfolio pair ty
              (executedPrice ty price slip) amount).1
            then TradeStatus.EXECUTED else TradeStatus.FAILED)
    ∧ (engineLogEntry st pair ty price amount slip logId ts).pair = pair
    ∧ (engineLogEntry st pair ty price amount slip logId ts).type = ty
    ∧ (engineLogEntry st pair ty price amount slip logId ts).amount
        = amount := by
  rw [engineExecuteTrade_logs]
  by_cases hlen : st.logs.length + 1 > 1000
  · have hlen' : st.logs.length = 1000 := le_antisymm h (by omega)
    rw [if_pos hlen]
    refine ⟨?_, ?_, rfl, rfl, rfl, rfl⟩
    · simp [List.length_tail, List.length_append, hlen']
    · rw [hlen', ← List.drop_one]
  · rw [if_neg hlen]
    refine ⟨?_, ?_, rfl, rfl, rfl, rfl⟩
    · simp only [List.length_append, List.length_cons, List.length_nil]
      omega
    · have hdrop : st.logs.length + 1 - 1000 = 0 := by omega
      rw [hdrop, List.drop_zero]

/-- Witness for C8: one trade from an empty log yields a log of length
at most 1000. -/
theorem engine_log_cap_witness :
    (engineExecuteTrade ⟨initialPortfolio, []⟩ "XRP/USDT" .BUY 2 5 0
        "b" 7).logs.length ≤ 1000 :=
  (engine_log_cap ⟨initialPortfolio, []⟩ "XRP/USDT" .BUY 2 5 0 "b" 7
    (by simp)).1

/-! ### C9: the rebalance planner emits exactly the claimed orders -/

/-- The rebalance rule exactly as claim C9 words it, for one target
allocation entry: pairs with unknown prices or deviation at most 5%
yield no order; above the threshold, a SELL of
`(currentValue − targetValue)/price` when overweight, otherwise a BUY of
`(targetValue − currentValue)/price` gated by
`balance ≥ deficit value`. -/
def claimedRebalanceFor (p : Portfolio) (currentEquity : ℚ)
    (md : MarketData) (e : String × ℚ) : Option RebalanceOrder :=
  match hasLast md e.1 with
  | none => none
  | some price =>
      let currentValue : ℚ :=
        match getPos p.positions e.1 with
        | some pos => pos.amount * price
        | none => 0
      let targetValue : ℚ := currentEquity * e.2
      if |currentValue - targetValue| / currentEquity ≤ 5/100 then none
      else if currentValue > targetValue then
        some ⟨e.1, .SELL, (currentValue - targetValue) / price, price⟩
      else if p.balance ≥ targetValue - currentValue then
        some ⟨e.1, .BUY, (targetValue - currentValue) / price, price⟩
      else none

/-- The full rebalance plan as claim C9 words it. -/
def claimedRebalance (p : Portfolio) (md : MarketData) :
    List RebalanceOrder :=
  p.targetAllocations.filterMap (claimedRebalanceFor p (equity p md) md)

/-- C9: `checkRebalance` produces exactly the orders the claim
describes, pair by pair over `targetAllocations`. -/
theorem checkRebalance_matches_claim (p : Portfolio) (md : MarketData) :
    checkRebalance p md = claimedRebalance p md := by
  show List.filterMap (rebalanceFor p (equity p md) md) p.targetAllocations
    = List.filterMap (claimedRebalanceFor p (equity p md) md)
        p.targetAllocations
  congr 1
  funext e
  unfold rebalanceFor claimedRebalanceFor
  rcases h : hasLast md e.1 with _ | price
  · rfl
  · simp only
    rcases le_or_lt (|(match getPos p.positions e.1 with
        | some pos => pos.amount * price
        | none => 0) - equity p md * e.2| / equity p md) (5/100) with hd | hd
    · rw [if_neg (not_lt.mpr hd), if_pos hd]
    · rw [if_pos hd, if_neg (not_le.mpr hd)]

/-- Witness for C9 at a concrete portfolio and snapshot. -/
theorem checkRebalance_matches_claim_witness :
    checkRebalance initialPortfolio (fun _ => some 10)
      = claimedRebalance initialPortfolio (fun _ => some 10) :=
  checkRebalance_matches_claim initialPortfolio (fun _ => some 10)
